import Mathlib

/-
Verification development for the SpirographSFML repository (src/main.cpp).
The kinematics engine and the adaptive tracer are shallowly embedded over ℝ:
C++ float arithmetic is modelled by exact real arithmetic, std::cos/std::sin
by Real.cos/Real.sin and std::hypot by Real.sqrt of the sum of squares.
-/

namespace Spirograph

/-- 2D vector, modelling sf::Vector2f. -/
structure Vec2 where
  x : ℝ
  y : ℝ

def Vec2.add (a b : Vec2) : Vec2 := ⟨a.x + b.x, a.y + b.y⟩

/-- Model of std::hypot. -/
noncomputable def hypotR (x y : ℝ) : ℝ := Real.sqrt (x ^ 2 + y ^ 2)

/-- Model of sf::Color (8-bit channels kept as ℕ). -/
structure ColorRGBA where
  r : ℕ
  g : ℕ
  b : ℕ
  a : ℕ
deriving DecidableEq

/-- One level of the rolling-disc chain (struct Stage in main.cpp; the SFML
visual members, which the kinematics never reads, are omitted). -/
structure Stage where
  level : ℤ
  r : ℝ
  d : ℝ
  outside : Bool
  speed : ℝ
  phase : ℝ

def dummyStage : Stage := ⟨1, 1, 0, false, 0, 0⟩

/-- The loop body of nestedPenAndCenters_perStageSpeed, recursing over the
remaining stages and carrying the accumulated position and the radius the
current stage rolls against. A singleton remainder is the last stage
(j + 1 == stages.size() in the C++). -/
noncomputable def nestedGo (t : ℝ) : ℝ → Vec2 → List Stage → Vec2 × List Vec2
  | _, acc, [] => (acc, [])
  | baseRadius, acc, [s] =>
      let alpha := s.speed * t + s.phase
      let kappa := if s.outside then baseRadius + s.r else baseRadius - s.r
      let acc1 : Vec2 := ⟨acc.x + kappa * Real.cos alpha, acc.y + kappa * Real.sin alpha⟩
      let freq := kappa / s.r
      let beta := freq * alpha
      let off : Vec2 :=
        if s.outside then ⟨-s.d * Real.cos beta, -s.d * Real.sin beta⟩
        else ⟨s.d * Real.cos beta, -s.d * Real.sin beta⟩
      (⟨acc1.x + off.x, acc1.y + off.y⟩, [acc1])
  | baseRadius, acc, s :: s2 :: rest =>
      let alpha := s.speed * t + s.phase
      let kappa := if s.outside then baseRadius + s.r else baseRadius - s.r
      let acc1 : Vec2 := ⟨acc.x + kappa * Real.cos alpha, acc.y + kappa * Real.sin alpha⟩
      let res := nestedGo t s.r acc1 (s2 :: rest)
      (res.1, acc1 :: res.2)

/-- nestedPenAndCenters_perStageSpeed (main.cpp lines 90-122): pen position
and per-stage disc centers in local coordinates. -/
noncomputable def nestedPenAndCenters_perStageSpeed
    (R : ℝ) (stages : List Stage) (t : ℝ) : Vec2 × List Vec2 :=
  nestedGo t R ⟨0, 0⟩ stages

/-- penAtTime (main.cpp lines 125-129): pen local position only. -/
noncomputable def penAtTime (R : ℝ) (chain : List Stage) (t : ℝ) : Vec2 :=
  (nestedPenAndCenters_perStageSpeed R chain t).1

/-- The pen-offset vector applied on the last stage (the `last` branch of the
loop), as a function of the radius that stage rolls against. -/
noncomputable def stageOffset (base t : ℝ) (s : Stage) : Vec2 :=
  let alpha := s.speed * t + s.phase
  let kappa := if s.outside then base + s.r else base - s.r
  let beta := (kappa / s.r) * alpha
  if s.outside then ⟨-s.d * Real.cos beta, -s.d * Real.sin beta⟩
  else ⟨s.d * Real.cos beta, -s.d * Real.sin beta⟩

/-- The center increment of one loop iteration (steps a. to c. of the fold):
the accumulated position plus the center-path radius times the direction of
the driving angle. -/
noncomputable def stepCenter (base : ℝ) (acc : Vec2) (s : Stage) (t : ℝ) : Vec2 :=
  let alpha := s.speed * t + s.phase
  let kappa := if s.outside then base + s.r else base - s.r
  ⟨acc.x + kappa * Real.cos alpha, acc.y + kappa * Real.sin alpha⟩

/-- The radius the last stage of the chain rolls against: the base radius for
a chain of at most one stage, and the next-to-last stage radius otherwise
(the `baseRadius = s.r` update in the loop). -/
def lastBase (R : ℝ) : List Stage → ℝ
  | [] => R
  | [_] => R
  | s :: s2 :: rest => lastBase s.r (s2 :: rest)

/-- Truncation toward zero, modelling the C float-to-integer conversion and
the truncated quotient underlying std::fmod. -/
noncomputable def truncR (x : ℝ) : ℤ := if 0 ≤ x then Int.floor x else Int.ceil x

/-- Model of std::fmod: x - trunc(x / y) * y. -/
noncomputable def fmodR (x y : ℝ) : ℝ := x - (truncR (x / y) : ℝ) * y

/-- The hue computed per sub-segment endpoint (main.cpp lines 406-407). -/
noncomputable def hueAt (len pixelsPerCycle hueOffset : ℝ) : ℝ :=
  fmodR ((len / pixelsPerCycle) * 360 + hueOffset) 360

/-- The sub-step count (main.cpp lines 390-392):
ceil(dist / max(0.1, maxPixelStep)) clamped by std::clamp to [1, maxSubsteps]. -/
noncomputable def stepsCount (dist maxPixelStep : ℝ) (maxSubsteps : ℤ) : ℤ :=
  let steps := Int.ceil (dist / max 0.1 maxPixelStep)
  if steps < 1 then 1 else if maxSubsteps < steps then maxSubsteps else steps

/-- Modelled from the spec's words (for comparison with stepsCount):
`steps = clamp(ceil(distance / maxPixelStep), 1, maxSubsteps)`. -/
noncomputable def specSteps (dist maxPixelStep : ℝ) (maxSubsteps : ℤ) : ℤ :=
  max 1 (min (Int.ceil (dist / maxPixelStep)) maxSubsteps)

/-- drawThickSegment (main.cpp lines 32-57). The emitted geometry is returned
as a list of colored points: the four quad corners then the two cap centers;
a degenerate segment (length below 0.0001) emits nothing. -/
noncomputable def drawThickSegment (a b : Vec2) (stroke : ℝ) (ca cb : ColorRGBA) :
    List (Vec2 × ColorRGBA) :=
  let dx := b.x - a.x
  let dy := b.y - a.y
  let len := hypotR dx dy
  if len < 0.0001 then []
  else
    let nx := -dy / len * (stroke * 0.5)
    let ny := dx / len * (stroke * 0.5)
    [(⟨a.x - nx, a.y - ny⟩, ca), (⟨a.x + nx, a.y + ny⟩, ca),
     (⟨b.x + nx, b.y + ny⟩, cb), (⟨b.x - nx, b.y - ny⟩, cb),
     (a, ca), (b, cb)]

/-- The C++ `%` on int: truncated remainder (sign of the dividend). -/
def cppMod (i n : ℤ) : ℤ := if 0 ≤ i then i % n else -((-i) % n)

/-- wrapIndex (main.cpp lines 288-293), with n = chain.size(). -/
def wrapIndex (n : ℕ) (i : ℤ) : ℤ :=
  if n = 0 then 0
  else
    let i1 := cppMod i n
    if i1 < 0 then i1 + n else i1

/-- The sub-step loop of the tracer (main.cpp lines 396-415): walks i from a
start value while k iterations remain, re-evaluating the kinematics at each
interpolated time, accumulating the path length, and collecting the drawn
points in order. Returns (prev, pathLen, drawn points). -/
noncomputable def traceLoop (sc : Vec2) (R : ℝ) (chain : List Stage) (lastT t : ℝ)
    (steps : ℕ) : ℕ → ℕ → Vec2 → ℝ → Vec2 × ℝ × List Vec2
  | _, 0, prev, len => (prev, len, [])
  | i, k + 1, prev, len =>
      let s := (i : ℝ) / (steps : ℝ)
      let ti := lastT + (t - lastT) * s
      let p := Vec2.add sc (penAtTime R chain ti)
      let res := traceLoop sc R chain lastT t steps (i + 1) k p
        (len + hypotR (p.x - prev.x) (p.y - prev.y))
      (res.1, res.2.1, p :: res.2.2)

/-- The point drawn by sub-step i of the loop: the kinematics freshly
evaluated at the interpolated time, plus the screen center. -/
noncomputable def stepPoint (sc : Vec2) (R : ℝ) (chain : List Stage)
    (lastT t : ℝ) (steps i : ℕ) : Vec2 :=
  Vec2.add sc (penAtTime R chain (lastT + (t - lastT) * ((i : ℝ) / (steps : ℝ))))

/-- The tracer's per-run mutable state (haveLast, lastPen, lastT, pathLen). -/
structure TracerState where
  haveLast : Bool
  lastPen : Vec2
  lastT : ℝ
  pathLen : ℝ

/-- One frame of the trace block (main.cpp lines 377-424): when tracing and
the help overlay is hidden, start a run if none is active, pick the sub-step
count from the on-screen distance, walk the sub-steps, and commit lastPen,
lastT and the accumulated path length; otherwise only drop haveLast. -/
noncomputable def advance (sc : Vec2) (maxPixelStep : ℝ) (maxSubsteps : ℤ)
    (R : ℝ) (chain : List Stage) (tracing helpVisible : Bool) (t : ℝ)
    (st : TracerState) : TracerState :=
  if (tracing && !helpVisible) = true then
    let currPen := Vec2.add sc (penAtTime R chain t)
    let st1 := if st.haveLast then st
      else { st with haveLast := true, lastPen := currPen, lastT := t }
    let dist := hypotR (currPen.x - st1.lastPen.x) (currPen.y - st1.lastPen.y)
    let steps := (stepsCount dist maxPixelStep maxSubsteps).toNat
    let res := traceLoop sc R chain st1.lastT t steps 1 steps st1.lastPen st1.pathLen
    { haveLast := true, lastPen := currPen, lastT := t, pathLen := res.2.1 }
  else
    { st with haveLast := false }

/-- The C key handler (main.cpp lines 320-323): clear the trace surface,
drop the run and reset the cumulative arc length. -/
def clearTrace (st : TracerState) : TracerState :=
  { st with haveLast := false, pathLen := 0 }

/-- Modelled from the spec's words (for comparison with the sub-step points):
linear interpolation between two positions. -/
def lerpVec (a b : Vec2) (s : ℝ) : Vec2 :=
  ⟨a.x + (b.x - a.x) * s, a.y + (b.y - a.y) * s⟩

/-- A concrete single-stage chain used to evaluate the tracer at exact
angles: radius 1, no pen offset, inside roll, speed π, phase 0. -/
noncomputable def demoChain : List Stage := [⟨1, 1, 0, false, Real.pi, 0⟩]

/-- Two stages identical in every field except possibly the pen offset d. -/
def sameExceptD (s1 s2 : Stage) : Prop :=
  s1.level = s2.level ∧ s1.r = s2.r ∧ s1.outside = s2.outside ∧
  s1.speed = s2.speed ∧ s1.phase = s2.phase

/-- Two chains identical except possibly for the d values of non-last
stages (the last stages must agree in full, d included). -/
def agreeExceptNonLastD : List Stage → List Stage → Prop
  | [], [] => True
  | [s1], [s2] => s1 = s2
  | s1 :: s2 :: r1, u1 :: u2 :: r2 =>
      sameExceptD s1 u1 ∧ agreeExceptNonLastD (s2 :: r1) (u2 :: r2)
  | _, _ => False

/-! Helper lemmas. -/

theorem nestedGo_single (t base : ℝ) (acc : Vec2) (s : Stage) :
    nestedGo t base acc [s] =
      (Vec2.add (stepCenter base acc s t) (stageOffset base t s),
       [stepCenter base acc s t]) := by
  simp only [nestedGo, stepCenter, stageOffset, Vec2.add]

theorem nestedGo_cons2 (t base : ℝ) (acc : Vec2) (s s2 : Stage) (tl2 : List Stage) :
    nestedGo t base acc (s :: s2 :: tl2) =
      ((nestedGo t s.r (stepCenter base acc s t) (s2 :: tl2)).1,
        stepCenter base acc s t ::
          (nestedGo t s.r (stepCenter base acc s t) (s2 :: tl2)).2) := by
  simp only [nestedGo, stepCenter]

theorem nestedGo_centers_length (t : ℝ) : ∀ (chain : List Stage) (base : ℝ)
    (acc : Vec2), (nestedGo t base acc chain).2.length = chain.length := by
  intro chain
  induction chain with
  | nil => intro base acc; rfl
  | cons s tl ih =>
      intro base acc
      cases tl with
      | nil => rw [nestedGo_single]; rfl
      | cons s2 tl2 =>
          rw [nestedGo_cons2]
          simp only [List.length_cons, ih]

theorem nestedGo_pen_offset (t : ℝ) : ∀ (chain : List Stage) (base : ℝ)
    (acc c : Vec2) (slast : Stage),
    (nestedGo t base acc chain).2.getLast? = some c →
    chain.getLast? = some slast →
    (nestedGo t base acc chain).1 =
      Vec2.add c (stageOffset (lastBase base chain) t slast) := by
  intro chain
  induction chain with
  | nil =>
      intro base acc c slast hc hs
      simp at hs
  | cons s tl ih =>
      intro base acc c slast hc hs
      cases tl with
      | nil =>
          rw [nestedGo_single] at hc ⊢
          simp only [List.getLast?_singleton, Option.some.injEq] at hc hs
          rw [← hc, ← hs]
          rfl
      | cons s2 tl2 =>
          rw [nestedGo_cons2] at hc ⊢
          rcases hrl : (nestedGo t s.r (stepCenter base acc s t) (s2 :: tl2)).2 with
            _ | ⟨y, ys⟩
          · have hlen := nestedGo_centers_length t (s2 :: tl2) s.r
              (stepCenter base acc s t)
            rw [hrl] at hlen
            simp at hlen
          · rw [hrl] at hc
            rw [List.getLast?_cons_cons] at hc
            rw [List.getLast?_cons_cons] at hs
            have : (nestedGo t s.r (stepCenter base acc s t) (s2 :: tl2)).2.getLast? =
                some c := by rw [hrl, hc]
            have hpen := ih s.r (stepCenter base acc s t) c slast this hs
            simpa [lastBase] using hpen

theorem nestedGo_congr (t : ℝ) : ∀ (c1 c2 : List Stage), agreeExceptNonLastD c1 c2 →
    ∀ (base : ℝ) (acc : Vec2), nestedGo t base acc c1 = nestedGo t base acc c2 := by
  intro c1
  induction c1 with
  | nil =>
      intro c2 hag base acc
      cases c2 with
      | nil => rfl
      | cons u tl2 => cases tl2 <;> exact absurd hag (by simp [agreeExceptNonLastD])
  | cons s tl ih =>
      intro c2 hag base acc
      cases c2 with
      | nil => cases tl <;> exact absurd hag (by simp [agreeExceptNonLastD])
      | cons u tl2 =>
          cases tl with
          | nil =>
              cases tl2 with
              | nil =>
                  simp only [agreeExceptNonLastD] at hag
                  rw [hag]
              | cons u2 t2 => exact absurd hag (by simp [agreeExceptNonLastD])
          | cons s2 t1 =>
              cases tl2 with
              | nil => exact absurd hag (by simp [agreeExceptNonLastD])
              | cons u2 t2 =>
                  simp only [agreeExceptNonLastD, sameExceptD] at hag
                  obtain ⟨⟨hlv, hr, ho, hsp, hp⟩, hrest⟩ := hag
                  rw [nestedGo_cons2, nestedGo_cons2]
                  have hstep : stepCenter base acc s t = stepCenter base acc u t := by
                    simp [stepCenter, hr, ho, hsp, hp]
                  rw [hstep, hr, ih (u2 :: t2) hrest]

theorem hypotR_nonneg (x y : ℝ) : 0 ≤ hypotR x y := Real.sqrt_nonneg _

theorem hypotR_zero : hypotR 0 0 = 0 := by norm_num [hypotR, Real.sqrt_zero]

theorem hypotR_neg_two_zero : hypotR (-2) 0 = 2 := by
  rw [hypotR, show ((-2 : ℝ)) ^ 2 + (0 : ℝ) ^ 2 = 2 ^ 2 by norm_num,
    Real.sqrt_sq (by norm_num : (0 : ℝ) ≤ 2)]

theorem hypotR_neg_one_one : hypotR (-1) 1 = Real.sqrt 2 := by
  norm_num [hypotR]

theorem hypotR_neg_one_neg_one : hypotR (-1) (-1) = Real.sqrt 2 := by
  norm_num [hypotR]

theorem traceLoop_zero (sc : Vec2) (R : ℝ) (chain : List Stage) (lastT t : ℝ)
    (steps i : ℕ) (prev : Vec2) (len : ℝ) :
    traceLoop sc R chain lastT t steps i 0 prev len = (prev, len, []) := rfl

theorem traceLoop_succ (sc : Vec2) (R : ℝ) (chain : List Stage) (lastT t : ℝ)
    (steps i k : ℕ) (prev : Vec2) (len : ℝ) :
    traceLoop sc R chain lastT t steps i (k + 1) prev len =
      ((traceLoop sc R chain lastT t steps (i + 1) k
          (stepPoint sc R chain lastT t steps i)
          (len + hypotR ((stepPoint sc R chain lastT t steps i).x - prev.x)
            ((stepPoint sc R chain lastT t steps i).y - prev.y))).1,
       (traceLoop sc R chain lastT t steps (i + 1) k
          (stepPoint sc R chain lastT t steps i)
          (len + hypotR ((stepPoint sc R chain lastT t steps i).x - prev.x)
            ((stepPoint sc R chain lastT t steps i).y - prev.y))).2.1,
       stepPoint sc R chain lastT t steps i ::
         (traceLoop sc R chain lastT t steps (i + 1) k
            (stepPoint sc R chain lastT t steps i)
            (len + hypotR ((stepPoint sc R chain lastT t steps i).x - prev.x)
              ((stepPoint sc R chain lastT t steps i).y - prev.y))).2.2) := rfl

theorem traceLoop_len_mono (sc : Vec2) (R : ℝ) (chain : List Stage) (lastT t : ℝ)
    (steps : ℕ) : ∀ (k i : ℕ) (prev : Vec2) (len : ℝ),
    len ≤ (traceLoop sc R chain lastT t steps i k prev len).2.1 := by
  intro k
  induction k with
  | zero => intro i prev len; rw [traceLoop_zero]
  | succ k ih =>
      intro i prev len
      rw [traceLoop_succ]
      exact le_trans (le_add_of_nonneg_right (hypotR_nonneg _ _)) (ih (i + 1) _ _)

theorem traceLoop_points (sc : Vec2) (R : ℝ) (chain : List Stage) (lastT t : ℝ)
    (steps : ℕ) : ∀ (k i : ℕ) (prev : Vec2) (len : ℝ) (j : ℕ), j < k →
    ((traceLoop sc R chain lastT t steps i k prev len).2.2)[j]? =
      some (stepPoint sc R chain lastT t steps (i + j)) := by
  intro k
  induction k with
  | zero => intro i prev len j hj; omega
  | succ k ih =>
      intro i prev len j hj
      rw [traceLoop_succ]
      cases j with
      | zero => simp
      | succ jj =>
          have hjj : jj < k := by omega
          simp only [List.getElem?_cons_succ]
          rw [ih (i + 1) _ _ jj hjj]
          have harg : i + 1 + jj = i + (jj + 1) := by omega
          rw [harg]

theorem demo_pen (u : ℝ) : penAtTime 2 demoChain u =
    ⟨Real.cos (Real.pi * u), Real.sin (Real.pi * u)⟩ := by
  rw [penAtTime, nestedPenAndCenters_perStageSpeed, demoChain, nestedGo_single]
  simp only [stepCenter, stageOffset, Vec2.add, Vec2.mk.injEq]
  norm_num

theorem demo_pen_zero : penAtTime 2 demoChain 0 = ⟨1, 0⟩ := by
  rw [demo_pen]
  simp

theorem demo_pen_one : penAtTime 2 demoChain 1 = ⟨-1, 0⟩ := by
  rw [demo_pen]
  simp

theorem demo_pen_half : penAtTime 2 demoChain (1 / 2) = ⟨0, 1⟩ := by
  rw [demo_pen, mul_one_div]
  simp

theorem stepsCount_zero_one : stepsCount 0 1 256 = 1 := by
  have c : Int.ceil ((0 : ℝ) / max 0.1 1) = 0 := by rw [zero_div, Int.ceil_zero]
  simp only [stepsCount, c]
  decide

theorem stepsCount_two_one : stepsCount 2 1 256 = 2 := by
  have hmax : max (0.1 : ℝ) 1 = 1 := max_eq_right (by norm_num)
  have e : (2 : ℝ) / max 0.1 1 = ((2 : ℤ) : ℝ) := by rw [hmax]; norm_num
  have c : Int.ceil ((2 : ℝ) / max 0.1 1) = 2 := by rw [e, Int.ceil_intCast]
  simp only [stepsCount, c]
  decide

theorem cos_pi_mul_half : Real.cos (Real.pi * (1 / 2)) = 0 := by
  rw [mul_one_div, Real.cos_pi_div_two]

theorem sin_pi_mul_half : Real.sin (Real.pi * (1 / 2)) = 1 := by
  rw [mul_one_div, Real.sin_pi_div_two]

theorem cos_pi_mul_inv_two : Real.cos (Real.pi * 2⁻¹) = 0 := by
  rw [← one_div, mul_one_div, Real.cos_pi_div_two]

theorem sin_pi_mul_inv_two : Real.sin (Real.pi * 2⁻¹) = 1 := by
  rw [← one_div, mul_one_div, Real.sin_pi_div_two]

theorem stepsCount_zero_one_toNat : (stepsCount 0 1 256).toNat = 1 := by
  rw [stepsCount_zero_one]
  rfl

theorem stepsCount_two_one_toNat : (stepsCount 2 1 256).toNat = 2 := by
  rw [stepsCount_two_one]
  rfl

theorem adv_frame1 :
    advance ⟨0, 0⟩ 1 256 2 demoChain true false 0 ⟨false, ⟨0, 0⟩, 0, 0⟩ =
      ⟨true, ⟨1, 0⟩, 0, 0⟩ := by
  norm_num [advance, Vec2.add, hypotR_zero, stepsCount_zero_one_toNat,
    traceLoop_succ, traceLoop_zero, stepPoint, demo_pen]

theorem adv_frame2 :
    advance ⟨0, 0⟩ 1 256 2 demoChain true false 1 ⟨true, ⟨1, 0⟩, 0, 0⟩ =
      ⟨true, ⟨-1, 0⟩, 1, Real.sqrt 2 + Real.sqrt 2⟩ := by
  norm_num [advance, Vec2.add, hypotR_neg_two_zero, stepsCount_two_one_toNat,
    traceLoop_succ, traceLoop_zero, stepPoint, demo_pen, Real.cos_pi, Real.sin_pi,
    cos_pi_mul_half, sin_pi_mul_half, cos_pi_mul_inv_two, sin_pi_mul_inv_two,
    hypotR_neg_one_one, hypotR_neg_one_neg_one]

theorem adv_frame3 :
    advance ⟨0, 0⟩ 1 256 2 demoChain false false 1
      ⟨true, ⟨-1, 0⟩, 1, Real.sqrt 2 + Real.sqrt 2⟩ =
      ⟨false, ⟨-1, 0⟩, 1, Real.sqrt 2 + Real.sqrt 2⟩ := by
  simp [advance]

/-! Claim theorems (continued below). -/

theorem fmodR_nonneg_eq (x y : ℝ) (hx : 0 ≤ x) (hy : 0 < y) :
    fmodR x y = y * Int.fract (x / y) := by
  have hy0 : y ≠ 0 := ne_of_gt hy
  have hq : 0 ≤ x / y := div_nonneg hx hy.le
  unfold fmodR truncR
  rw [if_pos hq, Int.fract]
  field_simp
  ring

theorem fmodR_add_right (x y : ℝ) (hx : 0 ≤ x) (hy : 0 < y) :
    fmodR (x + y) y = fmodR x y := by
  have hy0 : y ≠ 0 := ne_of_gt hy
  have h1 : (x + y) / y = x / y + 1 := by field_simp
  have hq : 0 ≤ x / y := div_nonneg hx hy.le
  have hq1 : 0 ≤ x / y + 1 := by linarith
  unfold fmodR truncR
  rw [h1, if_pos hq1, if_pos hq, Int.floor_add_one]
  push_cast
  ring

/-! Claim theorems. -/

/-- C9: for an empty chain the kinematics function is total: it returns pen
position (0,0) and an empty centers list, for every base radius and time. -/
theorem nested_empty_chain_total (R t : ℝ) :
    nestedPenAndCenters_perStageSpeed R [] t = (⟨0, 0⟩, []) := rfl

/-- C10: wrapIndex maps every integer into [0, n) when the chain is
non-empty (n = chain.size() > 0), and returns 0 when the chain is empty, so
the selected-stage index used by the editing operations stays in bounds. -/
theorem wrapIndex_range (n : ℕ) (i : ℤ) :
    (0 < n → 0 ≤ wrapIndex n i ∧ wrapIndex n i < (n : ℤ)) ∧
    (n = 0 → wrapIndex n i = 0) := by
  constructor
  · intro hn
    have hne : ¬ n = 0 := Nat.pos_iff_ne_zero.mp hn
    have hnz : (n : ℤ) ≠ 0 := by exact_mod_cast hne
    have hpos : (0 : ℤ) < n := by exact_mod_cast hn
    have h1 := Int.emod_nonneg i hnz
    have h2 := Int.emod_lt_of_pos i hpos
    have h3 := Int.emod_nonneg (-i) hnz
    have h4 := Int.emod_lt_of_pos (-i) hpos
    simp only [wrapIndex, cppMod, hne, if_false]
    split_ifs <;> omega
  · intro h
    simp [wrapIndex, h]

/-- C10 witness: wrapIndex at n = 10, i = -3 lies in [0, 10). -/
theorem wrapIndex_range_witness :
    0 ≤ wrapIndex 10 (-3) ∧ wrapIndex 10 (-3) < ((10 : ℕ) : ℤ) :=
  (wrapIndex_range 10 (-3)).1 (by decide)

/-- C7: for len ≥ 0, pixelsPerCycle > 0 and hueOffset in [0, 360), the
computed hue lies in [0, 360), and the hue is periodic with period
pixelsPerCycle in the cumulative length. -/
theorem hueAt_range_periodic (len ppc off : ℝ) (hlen : 0 ≤ len) (hppc : 0 < ppc)
    (hoff0 : 0 ≤ off) (hoff1 : off < 360) :
    0 ≤ hueAt len ppc off ∧ hueAt len ppc off < 360 ∧
    hueAt (len + ppc) ppc off = hueAt len ppc off := by
  have hA : 0 ≤ (len / ppc) * 360 + off := by positivity
  have h360 : (0 : ℝ) < 360 := by norm_num
  have e1 := fmodR_nonneg_eq ((len / ppc) * 360 + off) 360 hA h360
  refine ⟨?_, ?_, ?_⟩
  · rw [hueAt, e1]
    exact mul_nonneg (by norm_num) (Int.fract_nonneg _)
  · rw [hueAt, e1]
    exact mul_lt_of_lt_one_right h360 (Int.fract_lt_one _)
  · unfold hueAt
    have hsh : ((len + ppc) / ppc) * 360 + off = ((len / ppc) * 360 + off) + 360 := by
      field_simp
      ring
    rw [hsh, fmodR_add_right _ 360 hA h360]

/-- C7 witness: at len = 0, pixelsPerCycle = 600, hueOffset = 0 the hue is in
range and periodic. -/
theorem hueAt_range_periodic_witness :
    0 ≤ hueAt 0 600 0 ∧ hueAt 0 600 0 < 360 ∧
    hueAt (0 + 600) 600 0 = hueAt 0 600 0 :=
  hueAt_range_periodic 0 600 0 le_rfl (by norm_num) le_rfl (by norm_num)

/-- C4 counterexample: at distance 1, maxPixelStep = 0.05, maxSubsteps = 256,
the code computes 10 sub-steps (divisor max(0.1, maxPixelStep) = 0.1) while
the claimed formula clamp(ceil(distance / maxPixelStep), 1, maxSubsteps)
gives 20. -/
theorem stepsCount_spec_counterexample :
    stepsCount 1 0.05 256 = 10 ∧ specSteps 1 0.05 256 = 20 ∧
    stepsCount 1 0.05 256 ≠ specSteps 1 0.05 256 := by
  have e1 : (1 : ℝ) / max 0.1 0.05 = ((10 : ℤ) : ℝ) := by norm_num
  have e2 : (1 : ℝ) / (0.05 : ℝ) = ((20 : ℤ) : ℝ) := by norm_num
  have c1 : Int.ceil ((1 : ℝ) / max 0.1 0.05) = 10 := by rw [e1, Int.ceil_intCast]
  have c2 : Int.ceil ((1 : ℝ) / (0.05 : ℝ)) = 20 := by rw [e2, Int.ceil_intCast]
  refine ⟨?_, ?_, ?_⟩ <;> simp only [stepsCount, specSteps, c1, c2] <;> decide

/-- C4 (amended): the sub-step count equals
clamp(ceil(distance / max(0.1, maxPixelStep)), 1, maxSubsteps); it is monotone
non-decreasing in the distance and lies in [1, maxSubsteps]. -/
theorem stepsCount_clamp_monotone (d1 d2 mps : ℝ) (M : ℤ)
    (hd : d1 ≤ d2) (hM : 1 ≤ M) :
    stepsCount d1 mps M = max 1 (min (Int.ceil (d1 / max 0.1 mps)) M) ∧
    stepsCount d1 mps M ≤ stepsCount d2 mps M ∧
    1 ≤ stepsCount d1 mps M ∧ stepsCount d1 mps M ≤ M := by
  have hc : (0 : ℝ) < max 0.1 mps :=
    lt_of_lt_of_le (by norm_num) (le_max_left 0.1 mps)
  have hdiv : d1 / max 0.1 mps ≤ d2 / max 0.1 mps := by gcongr
  have hceil : Int.ceil (d1 / max 0.1 mps) ≤ Int.ceil (d2 / max 0.1 mps) :=
    Int.ceil_le_ceil hdiv
  set a := Int.ceil (d1 / max 0.1 mps) with ha
  set b := Int.ceil (d2 / max 0.1 mps) with hb
  simp only [stepsCount, ← ha, ← hb]
  refine ⟨?_, ?_, ?_, ?_⟩ <;> split_ifs <;> omega

/-- C4 witness: at distances 0 ≤ 1, maxPixelStep = 1 and maxSubsteps = 256 the
amended statement holds. -/
theorem stepsCount_clamp_monotone_witness :
    stepsCount 0 1 256 = max 1 (min (Int.ceil ((0 : ℝ) / max 0.1 1)) 256) ∧
    stepsCount 0 1 256 ≤ stepsCount 1 1 256 ∧
    1 ≤ stepsCount 0 1 256 ∧ stepsCount 0 1 256 ≤ 256 :=
  stepsCount_clamp_monotone 0 1 1 256 (by norm_num) (by norm_num)

/-- C8: a segment whose endpoints are closer than the 0.0001 threshold is a
no-op skip (nothing is emitted), and whenever something is emitted the
segment length that the normal vector is divided by is at least 0.0001. -/
theorem drawThickSegment_degenerate_skip (a b : Vec2) (stroke : ℝ)
    (ca cb : ColorRGBA) :
    (hypotR (b.x - a.x) (b.y - a.y) < 0.0001 →
      drawThickSegment a b stroke ca cb = []) ∧
    (drawThickSegment a b stroke ca cb ≠ [] →
      0.0001 ≤ hypotR (b.x - a.x) (b.y - a.y)) := by
  constructor
  · intro h
    simp only [drawThickSegment]
    rw [if_pos h]
  · intro h
    by_contra hlt
    push_neg at hlt
    apply h
    simp only [drawThickSegment]
    rw [if_pos hlt]

/-- C2: for a single-stage chain with unit angular speed and zero phase, and
R > r > 0, d ≥ 0, the kinematics function returns the closed-form
hypotrochoid when outside = false and the closed-form epitrochoid when
outside = true. -/
theorem nested_single_stage_closed_form (R r d t : ℝ)
    (hr : 0 < r) (hRr : r < R) (hd : 0 ≤ d) :
    (nestedPenAndCenters_perStageSpeed R [⟨1, r, d, false, 1, 0⟩] t).1 =
      ⟨(R - r) * Real.cos t + d * Real.cos (((R - r) / r) * t),
       (R - r) * Real.sin t - d * Real.sin (((R - r) / r) * t)⟩ ∧
    (nestedPenAndCenters_perStageSpeed R [⟨1, r, d, true, 1, 0⟩] t).1 =
      ⟨(R + r) * Real.cos t - d * Real.cos (((R + r) / r) * t),
       (R + r) * Real.sin t - d * Real.sin (((R + r) / r) * t)⟩ := by
  constructor <;>
  · rw [nestedPenAndCenters_perStageSpeed, nestedGo_single]
    simp only [stepCenter, stageOffset, Vec2.add, Vec2.mk.injEq]
    norm_num
    constructor <;> ring

/-- C2 witness: the closed forms hold at R = 2, r = 1, d = 1, t = 0. -/
theorem nested_single_stage_closed_form_witness :
    (nestedPenAndCenters_perStageSpeed 2 [⟨1, 1, 1, false, 1, 0⟩] 0).1 =
      ⟨(2 - 1) * Real.cos 0 + 1 * Real.cos (((2 - 1) / 1) * 0),
       (2 - 1) * Real.sin 0 - 1 * Real.sin (((2 - 1) / 1) * 0)⟩ ∧
    (nestedPenAndCenters_perStageSpeed 2 [⟨1, 1, 1, true, 1, 0⟩] 0).1 =
      ⟨(2 + 1) * Real.cos 0 - 1 * Real.cos (((2 + 1) / 1) * 0),
       (2 + 1) * Real.sin 0 - 1 * Real.sin (((2 + 1) / 1) * 0)⟩ :=
  nested_single_stage_closed_form 2 1 1 0 one_pos one_lt_two zero_le_one

/-- C3: for every non-empty chain, centers has exactly chain.length entries,
the pen position is the last center plus the pen-offset vector of the last
stage, and with last-stage pen offset d = 0 the pen coincides with the last
center. -/
theorem nested_centers_pen_relation (R t : ℝ) (chain : List Stage)
    (h : chain ≠ []) :
    (nestedPenAndCenters_perStageSpeed R chain t).2.length = chain.length ∧
    ∃ c slast,
      (nestedPenAndCenters_perStageSpeed R chain t).2.getLast? = some c ∧
      chain.getLast? = some slast ∧
      (nestedPenAndCenters_perStageSpeed R chain t).1 =
        Vec2.add c (stageOffset (lastBase R chain) t slast) ∧
      (slast.d = 0 → (nestedPenAndCenters_perStageSpeed R chain t).1 = c) := by
  have hlen := nestedGo_centers_length t chain R ⟨0, 0⟩
  refine ⟨hlen, ?_⟩
  obtain ⟨slast, hs⟩ := Option.isSome_iff_exists.mp (List.getLast?_isSome.mpr h)
  have hcne : (nestedGo t R ⟨0, 0⟩ chain).2 ≠ [] := by
    intro hcon
    rw [hcon] at hlen
    exact h (List.length_eq_zero.mp hlen.symm)
  obtain ⟨c, hc⟩ := Option.isSome_iff_exists.mp (List.getLast?_isSome.mpr hcne)
  have hpen := nestedGo_pen_offset t chain R ⟨0, 0⟩ c slast hc hs
  refine ⟨c, slast, hc, hs, hpen, ?_⟩
  intro hd0
  have hpen2 : (nestedPenAndCenters_perStageSpeed R chain t).1 =
      Vec2.add c (stageOffset (lastBase R chain) t slast) := hpen
  rw [hpen2]
  simp [stageOffset, Vec2.add, hd0]

/-- C3 witness: the relation at R = 2, a concrete single-stage chain, t = 0. -/
theorem nested_centers_pen_relation_witness :
    (nestedPenAndCenters_perStageSpeed 2 [⟨1, 1, 1, false, 1, 0⟩] 0).2.length =
      ([⟨1, 1, 1, false, 1, 0⟩] : List Stage).length ∧
    ∃ c slast,
      (nestedPenAndCenters_perStageSpeed 2 [⟨1, 1, 1, false, 1, 0⟩] 0).2.getLast? =
        some c ∧
      ([⟨1, 1, 1, false, 1, 0⟩] : List Stage).getLast? = some slast ∧
      (nestedPenAndCenters_perStageSpeed 2 [⟨1, 1, 1, false, 1, 0⟩] 0).1 =
        Vec2.add c (stageOffset (lastBase 2 [⟨1, 1, 1, false, 1, 0⟩]) 0 slast) ∧
      (slast.d = 0 →
        (nestedPenAndCenters_perStageSpeed 2 [⟨1, 1, 1, false, 1, 0⟩] 0).1 = c) :=
  nested_centers_pen_relation 2 0 [⟨1, 1, 1, false, 1, 0⟩] (by simp)

/-- C6: the pen offset d of any non-last stage has no effect: two chains
identical except for non-last d values produce the same pen position and the
same centers for every base radius and time. -/
theorem nested_ignores_nonlast_penOffset (R t : ℝ) (c1 c2 : List Stage)
    (hag : agreeExceptNonLastD c1 c2) :
    nestedPenAndCenters_perStageSpeed R c1 t = nestedPenAndCenters_perStageSpeed R c2 t :=
  nestedGo_congr t c1 c2 hag R ⟨0, 0⟩

/-- C6 witness: two two-stage chains differing only in the first stage's d
give identical output. -/
theorem nested_ignores_nonlast_penOffset_witness :
    nestedPenAndCenters_perStageSpeed 3 [⟨1, 2, 5, true, 1, 0⟩, ⟨2, 1, 1, false, 1, 0⟩] 0 =
    nestedPenAndCenters_perStageSpeed 3 [⟨1, 2, 7, true, 1, 0⟩, ⟨2, 1, 1, false, 1, 0⟩] 0 :=
  nested_ignores_nonlast_penOffset 3 0 _ _
    (by simp [agreeExceptNonLastD, sameExceptD])

/-- C1 counterexample: in the run started from the reset state, one active
frame at t = 0 then one at t = 1 accumulate pathLen = 2·√2 > 0; the
following pause frame (tracing off) drops the run (haveLast = false) but
leaves pathLen non-zero, contradicting the claimed reset to 0 on pause. -/
theorem pathLen_pause_counterexample :
    ((advance ⟨0, 0⟩ 1 256 2 demoChain false false 1
        (advance ⟨0, 0⟩ 1 256 2 demoChain true false 1
          (advance ⟨0, 0⟩ 1 256 2 demoChain true false 0
            ⟨false, ⟨0, 0⟩, 0, 0⟩))).haveLast = false) ∧
    ((advance ⟨0, 0⟩ 1 256 2 demoChain false false 1
        (advance ⟨0, 0⟩ 1 256 2 demoChain true false 1
          (advance ⟨0, 0⟩ 1 256 2 demoChain true false 0
            ⟨false, ⟨0, 0⟩, 0, 0⟩))).pathLen ≠ 0) := by
  rw [adv_frame1, adv_frame2, adv_frame3]
  refine ⟨rfl, ?_⟩
  show Real.sqrt 2 + Real.sqrt 2 ≠ 0
  positivity

/-- C1 (amended): the cumulative arc length is non-decreasing across advance
calls; a clear event resets it to 0 and drops the run; a pause frame
(tracing off) drops the run (haveLast = false) but leaves the cumulative arc
length unchanged — pathLen is reset to 0 on clear only, not on pause. -/
theorem pathLen_monotone_and_reset (sc : Vec2) (mps : ℝ) (M : ℤ) (R : ℝ)
    (chain : List Stage) (tracing hv : Bool) (t : ℝ) (st : TracerState) :
    st.pathLen ≤ (advance sc mps M R chain tracing hv t st).pathLen ∧
    (clearTrace st).pathLen = 0 ∧ (clearTrace st).haveLast = false ∧
    (advance sc mps M R chain false hv t st).pathLen = st.pathLen ∧
    (advance sc mps M R chain false hv t st).haveLast = false := by
  refine ⟨?_, rfl, rfl, by simp [advance], by simp [advance]⟩
  by_cases hcond : (tracing && !hv) = true
  · simp only [advance, hcond, if_true]
    have hst1 : (if st.haveLast = true then st
        else TracerState.mk true (Vec2.add sc (penAtTime R chain t)) t
          st.pathLen).pathLen = st.pathLen := by
      split <;> rfl
    rw [hst1]
    exact traceLoop_len_mono sc R chain _ t _ _ _ _ st.pathLen
  · simp [advance, hcond]

/-- C5: the i-th drawn sub-step point (0-based index j = i - 1) is the
kinematics function freshly evaluated at the interpolated time
lastT + (t - lastT) * (i / steps), and it differs from the linear
interpolation of the endpoint positions in a concrete run. -/
theorem substep_points_fresh_kinematics (sc : Vec2) (R : ℝ) (chain : List Stage)
    (lastT t : ℝ) (steps : ℕ) (prev : Vec2) (len : ℝ) (j : ℕ) (hj : j < steps) :
    ((traceLoop sc R chain lastT t steps 1 steps prev len).2.2)[j]? =
      some (Vec2.add sc (penAtTime R chain
        (lastT + (t - lastT) * (((j : ℝ) + 1) / (steps : ℝ))))) ∧
    ((traceLoop ⟨0, 0⟩ 2 demoChain 0 1 2 1 2 ⟨1, 0⟩ 0).2.2)[0]? ≠
      some (lerpVec ⟨1, 0⟩ ⟨-1, 0⟩ (1 / 2)) := by
  constructor
  · rw [traceLoop_points sc R chain lastT t steps steps 1 prev len j hj]
    simp only [stepPoint]
    have hc : ((1 + j : ℕ) : ℝ) = (j : ℝ) + 1 := by push_cast; ring
    rw [hc]
  · rw [traceLoop_points ⟨0, 0⟩ 2 demoChain 0 1 2 2 1 ⟨1, 0⟩ 0 0 (by norm_num)]
    norm_num [stepPoint, lerpVec, Vec2.add, demo_pen, cos_pi_mul_half,
      sin_pi_mul_half, cos_pi_mul_inv_two, sin_pi_mul_inv_two, Vec2.mk.injEq]

/-- C5 witness: the sub-step point property at a concrete instance. -/
theorem substep_points_fresh_kinematics_witness :
    ((traceLoop ⟨0, 0⟩ 1 [] 0 1 1 1 1 ⟨0, 0⟩ 0).2.2)[0]? =
      some (Vec2.add ⟨0, 0⟩ (penAtTime 1 []
        (0 + (1 - 0) * ((((0 : ℕ) : ℝ) + 1) / ((1 : ℕ) : ℝ))))) ∧
    ((traceLoop ⟨0, 0⟩ 2 demoChain 0 1 2 1 2 ⟨1, 0⟩ 0).2.2)[0]? ≠
      some (lerpVec ⟨1, 0⟩ ⟨-1, 0⟩ (1 / 2)) :=
  substep_points_fresh_kinematics ⟨0, 0⟩ 1 [] 0 1 1 ⟨0, 0⟩ 0 0 Nat.one_pos

/-- C8 witness: the zero-length segment at the origin emits nothing. -/
theorem drawThickSegment_degenerate_skip_witness :
    drawThickSegment ⟨0, 0⟩ ⟨0, 0⟩ 6 ⟨255, 0, 0, 230⟩ ⟨255, 0, 0, 230⟩ = [] :=
  (drawThickSegment_degenerate_skip ⟨0, 0⟩ ⟨0, 0⟩ 6 ⟨255, 0, 0, 230⟩
    ⟨255, 0, 0, 230⟩).1 (by norm_num [hypotR, Real.sqrt_zero])

end Spirograph
